import Mathlib

/-!
Verification of the EML-to-PDF batch conversion pipeline.

This file gives a shallow embedding, in Lean 4, of the core library code of
the repository (src/lib/utils/eml-parser.ts, src/lib/utils/pdf-generator.ts,
src/lib/utils/converter.ts, src/lib/store/app-store.ts) and proves or refutes
the frozen claims about it.

Conventions used throughout:
* JavaScript strings are modelled as `List Char`; byte buffers as `List Nat`
  (each entry < 256 where relevant).
* External collaborators (the MIME parser, `html2canvas` rasterization,
  `URL.createObjectURL`, font metrics) are taken as explicit function
  parameters of the definitions that call them.
* Fallible JavaScript code (thrown exceptions caught at a try/catch boundary)
  is modelled with `Except`/`Option`.
* JavaScript fractional numbers are modelled as `ℚ`.
* The asynchronous per-batch `Promise.all` is serialized in input order; the
  per-file effects (status updates keyed by file id, counter increments,
  buffered results) are independent per file, so every interleaving yields
  the same final store; only the order of `batchPdfData` entries depends on
  completion order, which is noted where it matters.
-/

/-! ## Generic character/string machinery -/

/-- Lower-case a character list (models the effect of a JS case-insensitive
regex flag; ASCII folding suffices for the inputs considered here). -/
def lowerStr (s : List Char) : List Char := s.map Char.toLower

/-- `litStartsWith p s`: `s` starts with the literal pattern `p`. -/
def litStartsWith (p s : List Char) : Bool := decide (p = s.take p.length)

/-- `ciStartsWith p s`: `s` starts with `p` up to case. -/
def ciStartsWith (p s : List Char) : Bool :=
  decide (lowerStr p = lowerStr (s.take p.length))

/-- `litOccursB p s`: the literal pattern `p` occurs as a contiguous
substring of `s`. -/
def litOccursB (p : List Char) : List Char → Bool
  | [] => p.isEmpty
  | c :: cs => litStartsWith p (c :: cs) || litOccursB p cs

/-- `ciOccurs p s`: `p` occurs as a contiguous substring of `s`, up to case. -/
def ciOccurs (p : List Char) : List Char → Bool
  | [] => p.isEmpty
  | c :: cs => ciStartsWith p (c :: cs) || ciOccurs p cs

/-! ## Email model and decoder (src/lib/utils/eml-parser.ts) -/

/-- An attachment extracted from a MIME leaf
(interface `EmailAttachment`, eml-parser.ts:16-23). -/
structure EmailAttachment where
  filename : List Char
  contentType : List Char
  content : List Nat
  contentId : Option (List Char)
  disposition : Option (List Char)
  size : Nat
deriving DecidableEq, Repr

/-- A parsed email (interface `ParsedEmail`, eml-parser.ts:4-14; the source
field `from` is called `fromAddr` here because `from` is a Lean keyword).
The `date` and `headers` fields are carried as opaque data where the claims
do not inspect them. -/
structure ParsedEmail where
  subject : List Char
  fromAddr : List Char
  toList : List (List Char)
  ccList : List (List Char)
  hasDate : Bool
  textBody : List Char
  htmlBody : Option (List Char)
  attachments : List EmailAttachment
  headers : List (List Char × List Char)
deriving DecidableEq, Repr

/-- Is an uppercase-hex digit, i.e. matched by the character class
`[0-9A-F]` of the regex in eml-parser.ts:282. -/
def isUpperHexDigit (c : Char) : Bool := ('0' ≤ c ∧ c ≤ '9') ∨ ('A' ≤ c ∧ c ≤ 'F')

/-- Value of an uppercase-hex digit. -/
def hexDigitVal (c : Char) : Nat := if c ≤ '9' then c.toNat - 48 else c.toNat - 55

/-- First global replace of `decodeQuotedPrintable` (eml-parser.ts:281):
delete every occurrence of the soft line break, the three-character
sequence `=CRLF`.  A global JS regex replace scans left to right without
overlap, which is exactly this recursion; inputs shorter than the pattern
cannot match. -/
def removeSoftBreaks : List Char → List Char
  | [] => []
  | [c] => [c]
  | [c1, c2] => [c1, c2]
  | c1 :: c2 :: c3 :: rest =>
    if c1 = '=' ∧ c2 = '\r' ∧ c3 = '\n' then removeSoftBreaks rest
    else c1 :: removeSoftBreaks (c2 :: c3 :: rest)

/-- Does the soft-line-break pattern `=CRLF` occur anywhere in `s`? -/
def sbOccurs : List Char → Bool
  | c1 :: c2 :: c3 :: rest =>
    (decide (c1 = '=' ∧ c2 = '\r' ∧ c3 = '\n')) || sbOccurs (c2 :: c3 :: rest)
  | _ => false

/-- Second global replace of `decodeQuotedPrintable` (eml-parser.ts:282-284):
substitute every `=XX` (uppercase-hex) escape with
`String.fromCharCode(parseInt(XX, 16))`.  On a position where `=` is not
followed by an uppercase-hex pair the regex engine advances one character,
which is the else branch. -/
def replaceHexEscapes : List Char → List Char
  | [] => []
  | [c] => [c]
  | [c1, c2] => [c1, c2]
  | c1 :: c2 :: c3 :: rest =>
    if c1 = '=' ∧ isUpperHexDigit c2 = true ∧ isUpperHexDigit c3 = true then
      Char.ofNat (16 * hexDigitVal c2 + hexDigitVal c3) :: replaceHexEscapes rest
    else c1 :: replaceHexEscapes (c2 :: c3 :: rest)

/-- Does an `=XX` uppercase-hex escape occur anywhere in `s`? -/
def hexOccurs : List Char → Bool
  | c1 :: c2 :: c3 :: rest =>
    (decide (c1 = '=' ∧ isUpperHexDigit c2 = true ∧ isUpperHexDigit c3 = true)) ||
      hexOccurs (c2 :: c3 :: rest)
  | _ => false

/-- `decodeQuotedPrintable` (eml-parser.ts:279-285): soft-line-break removal
followed by hex-escape substitution. -/
def decodeQuotedPrintable (s : List Char) : List Char :=
  replaceHexEscapes (removeSoftBreaks s)

theorem removeSoftBreaks_eq_self {s : List Char} (h : sbOccurs s = false) :
    removeSoftBreaks s = s := by
  induction s using removeSoftBreaks.induct with
  | case1 => rfl
  | case2 c => rfl
  | case3 c1 c2 => rfl
  | case4 c1 c2 c3 rest hcond ih =>
    simp only [sbOccurs, Bool.or_eq_false_iff, decide_eq_false_iff_not] at h
    exact absurd hcond h.1
  | case5 c1 c2 c3 rest hcond ih =>
    simp only [sbOccurs, Bool.or_eq_false_iff, decide_eq_false_iff_not] at h
    rw [removeSoftBreaks, if_neg hcond, ih h.2]

theorem replaceHexEscapes_eq_self {s : List Char} (h : hexOccurs s = false) :
    replaceHexEscapes s = s := by
  induction s using replaceHexEscapes.induct with
  | case1 => rfl
  | case2 c => rfl
  | case3 c1 c2 => rfl
  | case4 c1 c2 c3 rest hcond ih =>
    simp only [hexOccurs, Bool.or_eq_false_iff, decide_eq_false_iff_not] at h
    exact absurd hcond h.1
  | case5 c1 c2 c3 rest hcond ih =>
    simp only [hexOccurs, Bool.or_eq_false_iff, decide_eq_false_iff_not] at h
    rw [replaceHexEscapes, if_neg hcond, ih h.2]

/-- C8: quoted-printable decoding deletes every soft line break `=CRLF` and
substitutes every `=XX` uppercase-hex escape with the character of code `XX`:
decoding `"Caf=E9"` yields `"Café"`, a soft line break is removed, and input
containing neither a soft line break nor an `=XX` escape is returned
unchanged. -/
theorem c8_decodeQuotedPrintable_spec :
    decodeQuotedPrintable "Caf=E9".data = "Café".data ∧
    decodeQuotedPrintable "a=\r\nb".data = "ab".data ∧
    ∀ s : List Char, sbOccurs s = false → hexOccurs s = false →
      decodeQuotedPrintable s = s := by
  refine ⟨by decide, by decide, ?_⟩
  intro s hsb hhex
  rw [decodeQuotedPrintable, removeSoftBreaks_eq_self hsb, replaceHexEscapes_eq_self hhex]

/-- Witness for C8 at a concrete already-plain input. -/
theorem c8_decodeQuotedPrintable_spec_witness :
    sbOccurs "Hello world.".data = false ∧ hexOccurs "Hello world.".data = false ∧
    decodeQuotedPrintable "Hello world.".data = "Hello world.".data :=
  ⟨by decide, by decide,
    c8_decodeQuotedPrintable_spec.2.2 "Hello world.".data (by decide) (by decide)⟩

/-! ## RFC 2047 encoded-word decoding (`decodeHeaderValue`, eml-parser.ts:290-308)

The JS code scans header values with the global regex
`=\?([^?]+)\?([BQ])\?([^?]+)\?=`; a `B` payload goes through
`atob` (forgiving base64) and then `decodeURIComponent(escape(..))`, which
reinterprets the byte values as UTF-8; a `Q` payload goes through
`decodeQuotedPrintable` and the same reinterpretation.  A decoding error is
caught and the raw payload text is returned for that word. -/

/-- ASCII whitespace removed by the forgiving-base64 decode used by `atob`. -/
def isB64Ws (c : Char) : Bool := c = ' ' ∨ c = '\t' ∨ c = '\n' ∨ c = '\x0c' ∨ c = '\r'

/-- Value of a base64 alphabet character. -/
def b64Val (c : Char) : Option Nat :=
  if 'A' ≤ c ∧ c ≤ 'Z' then some (c.toNat - 65)
  else if 'a' ≤ c ∧ c ≤ 'z' then some (c.toNat - 97 + 26)
  else if '0' ≤ c ∧ c ≤ '9' then some (c.toNat - 48 + 52)
  else if c = '+' then some 62
  else if c = '/' then some 63
  else none

/-- Reassemble 6-bit base64 values into bytes (a final group of one value is
invalid; groups of two or three values yield one or two bytes). -/
def b64Quads : List Nat → Option (List Nat)
  | [] => some []
  | [_] => none
  | [a, b] => some [a * 4 + b / 16]
  | [a, b, c] => some [a * 4 + b / 16, (b % 16) * 16 + c / 4]
  | a :: b :: c :: d :: rest =>
    (b64Quads rest).map
      (fun t => (a * 4 + b / 16) :: ((b % 16) * 16 + c / 4) :: ((c % 4) * 64 + d) :: t)

/-- Strip one trailing `==` or `=` when the length is a multiple of four
(the forgiving-base64 preprocessing of `atob`). -/
def dropTrailingPadding (s : List Char) : List Char :=
  if s.length % 4 = 0 then
    match s.reverse with
    | c1 :: c2 :: r => if c1 = '=' then (if c2 = '=' then r.reverse else (c2 :: r).reverse) else s
    | [c1] => if c1 = '=' then [] else s
    | [] => s
  else s

/-- JS `atob`: forgiving-base64 decode of a binary string, `none` models the
thrown `InvalidCharacterError`. -/
def atob (s : List Char) : Option (List Nat) :=
  let t := dropTrailingPadding (s.filter (fun c => ! isB64Ws c))
  if t.length % 4 = 1 then none
  else match t.mapM b64Val with
    | none => none
    | some vals => b64Quads vals

/-- Is a UTF-8 continuation byte. -/
def isCont (b : Nat) : Bool := 0x80 ≤ b ∧ b ≤ 0xBF

/-- Strict UTF-8 decoding of a byte list; `none` models the `URIError` thrown
by `decodeURIComponent` on a malformed sequence. -/
def utf8Decode : List Nat → Option (List Char)
  | [] => some []
  | b :: rest =>
    if b < 0x80 then (utf8Decode rest).map (fun t => Char.ofNat b :: t)
    else if 0xC2 ≤ b ∧ b ≤ 0xDF then
      match rest with
      | c1 :: rest2 =>
        if isCont c1 then
          (utf8Decode rest2).map (fun t => Char.ofNat ((b - 0xC0) * 64 + (c1 - 0x80)) :: t)
        else none
      | [] => none
    else if 0xE0 ≤ b ∧ b ≤ 0xEF then
      match rest with
      | c1 :: c2 :: rest2 =>
        if isCont c1 ∧ isCont c2 then
          if 0x800 ≤ (b - 0xE0) * 4096 + (c1 - 0x80) * 64 + (c2 - 0x80) ∧
              ((b - 0xE0) * 4096 + (c1 - 0x80) * 64 + (c2 - 0x80) < 0xD800 ∨
                0xDFFF < (b - 0xE0) * 4096 + (c1 - 0x80) * 64 + (c2 - 0x80)) then
            (utf8Decode rest2).map
              (fun t => Char.ofNat ((b - 0xE0) * 4096 + (c1 - 0x80) * 64 + (c2 - 0x80)) :: t)
          else none
        else none
      | _ => none
    else if 0xF0 ≤ b ∧ b ≤ 0xF4 then
      match rest with
      | c1 :: c2 :: c3 :: rest2 =>
        if isCont c1 ∧ isCont c2 ∧ isCont c3 then
          if 0x10000 ≤ (b - 0xF0) * 262144 + (c1 - 0x80) * 4096 + (c2 - 0x80) * 64 + (c3 - 0x80) ∧
              (b - 0xF0) * 262144 + (c1 - 0x80) * 4096 + (c2 - 0x80) * 64 + (c3 - 0x80) ≤ 0x10FFFF then
            (utf8Decode rest2).map
              (fun t =>
                Char.ofNat
                  ((b - 0xF0) * 262144 + (c1 - 0x80) * 4096 + (c2 - 0x80) * 64 + (c3 - 0x80)) :: t)
          else none
        else none
      | _ => none
    else none

/-- The `B` branch of the encoded-word replacement (eml-parser.ts:296-298):
`decodeURIComponent(escape(atob(text)))`, falling back to the raw payload on
a caught error. -/
def decodeBWord (text : List Char) : List Char :=
  match atob text with
  | none => text
  | some bytes =>
    match utf8Decode bytes with
    | some out => out
    | none => text

/-- The `Q` branch of the encoded-word replacement (eml-parser.ts:299-301):
`decodeURIComponent(escape(decodeQuotedPrintable(text)))` with the same
fallback; `escape` percent-encodes character codes below 256 and produces a
`%uXXXX` form (rejected by `decodeURIComponent`) for larger codes. -/
def decodeQWord (text : List Char) : List Char :=
  let d := decodeQuotedPrintable text
  if d.all (fun c => c.toNat < 256) then
    match utf8Decode (d.map Char.toNat) with
    | some out => out
    | none => text
  else text

/-- Dispatch on the captured encoding letter (eml-parser.ts:296-301). -/
def decodeWord (e : Char) (text : List Char) : List Char :=
  if e = 'B' then decodeBWord text else decodeQWord text

/-- Split a string at its first `?`, returning the (possibly empty) run
before it and the remainder after it; this is how the regex pieces
`([^?]+)\?` consume input. -/
def splitAtQ : List Char → Option (List Char × List Char)
  | [] => none
  | c :: cs =>
    if c = '?' then some ([], cs)
    else match splitAtQ cs with
      | none => none
      | some (a, b) => some (c :: a, b)

/-- Try to match the regex `=\?([^?]+)\?([BQ])\?([^?]+)\?=` at the head of
`s`; on success return the replacement text and the remaining input. -/
def parseEncodedWord : List Char → Option (List Char × List Char)
  | c1 :: c2 :: r1 =>
    if c1 = '=' ∧ c2 = '?' then
      match splitAtQ r1 with
      | none => none
      | some (charset, r2) =>
        if charset = [] then none
        else
          match r2 with
          | e :: q2 :: r3 =>
            if (e = 'B' ∨ e = 'Q') ∧ q2 = '?' then
              match splitAtQ r3 with
              | none => none
              | some (text, r4) =>
                if text = [] then none
                else
                  match r4 with
                  | q4 :: rest => if q4 = '=' then some (decodeWord e text, rest) else none
                  | [] => none
            else none
          | _ => none
    else none
  | _ => none

/-- The global-replace loop of `decodeHeaderValue` (eml-parser.ts:294): at
each position, either an encoded word matches and its replacement is
emitted, or the scan advances one character.  The `fuel` argument makes the
scan structurally recursive; `fuel = s.length` always suffices because every
step consumes at least one input character
(`parseEncodedWord_rest_length`). -/
def dhvAux : Nat → List Char → List Char
  | 0, s => s
  | fuel + 1, s =>
    match parseEncodedWord s with
    | some (d, rest) => d ++ dhvAux fuel rest
    | none =>
      match s with
      | [] => []
      | c :: cs => c :: dhvAux fuel cs

/-- `decodeHeaderValue` (eml-parser.ts:290-308). -/
def decodeHeaderValue (s : List Char) : List Char := dhvAux s.length s

theorem splitAtQ_length_lt {s a b : List Char} (h : splitAtQ s = some (a, b)) :
    b.length < s.length := by
  induction s generalizing a with
  | nil => simp [splitAtQ] at h
  | cons c cs ih =>
    rw [splitAtQ] at h
    split at h
    · cases h
      simp only [List.length_cons]
      omega
    · cases hsp : splitAtQ cs with
      | none => rw [hsp] at h; cases h
      | some p =>
        obtain ⟨a2, b2⟩ := p
        rw [hsp] at h
        cases h
        have := ih hsp
        simp only [List.length_cons]
        omega

theorem parseEncodedWord_rest_length {s d rest : List Char}
    (h : parseEncodedWord s = some (d, rest)) : rest.length < s.length := by
  cases s with
  | nil => simp [parseEncodedWord] at h
  | cons c1 s1 =>
    cases s1 with
    | nil => simp [parseEncodedWord] at h
    | cons c2 r1 =>
      rw [parseEncodedWord] at h
      by_cases h12 : c1 = '=' ∧ c2 = '?'
      · rw [if_pos h12] at h
        cases hsp : splitAtQ r1 with
        | none => rw [hsp] at h; cases h
        | some p =>
          obtain ⟨cset, r2⟩ := p
          rw [hsp] at h
          dsimp only at h
          have hr2 : r2.length < r1.length := splitAtQ_length_lt hsp
          by_cases hcs : cset = []
          · rw [if_pos hcs] at h; cases h
          · rw [if_neg hcs] at h
            cases r2 with
            | nil => cases h
            | cons e r2a =>
              cases r2a with
              | nil => cases h
              | cons q2 r3 =>
                dsimp only at h
                by_cases heq : (e = 'B' ∨ e = 'Q') ∧ q2 = '?'
                · rw [if_pos heq] at h
                  cases hsp2 : splitAtQ r3 with
                  | none => rw [hsp2] at h; cases h
                  | some p2 =>
                    obtain ⟨txt, r4⟩ := p2
                    rw [hsp2] at h
                    dsimp only at h
                    have hr4 : r4.length < r3.length := splitAtQ_length_lt hsp2
                    by_cases htx : txt = []
                    · rw [if_pos htx] at h; cases h
                    · rw [if_neg htx] at h
                      cases r4 with
                      | nil => cases h
                      | cons q4 rest4 =>
                        dsimp only at h
                        by_cases hq4 : q4 = '='
                        · rw [if_pos hq4] at h
                          cases h
                          simp only [List.length_cons] at hr2 hr4 ⊢
                          omega
                        · rw [if_neg hq4] at h; cases h
                · rw [if_neg heq] at h; cases h
      · rw [if_neg h12] at h; cases h

theorem dhvAux_fuel_eq {f1 f2 : Nat} {s : List Char}
    (h1 : s.length ≤ f1) (h2 : s.length ≤ f2) : dhvAux f1 s = dhvAux f2 s := by
  induction f1 generalizing f2 s with
  | zero =>
    have hs : s = [] := List.length_eq_zero.mp (Nat.le_zero.mp h1)
    subst hs
    cases f2 with
    | zero => rfl
    | succ g => simp [dhvAux, parseEncodedWord]
  | succ n ih =>
    cases s with
    | nil =>
      cases f2 with
      | zero => simp [dhvAux, parseEncodedWord]
      | succ g => simp [dhvAux, parseEncodedWord]
    | cons c cs =>
      cases f2 with
      | zero => exact absurd h2 (by simp)
      | succ g =>
        simp only [dhvAux]
        cases hp : parseEncodedWord (c :: cs) with
        | some p =>
          obtain ⟨d, rest⟩ := p
          have hlt := parseEncodedWord_rest_length hp
          simp only [List.length_cons] at h1 h2 hlt
          exact congrArg (d ++ ·) (ih (by omega) (by omega))
        | none =>
          simp only [List.length_cons] at h1 h2
          exact congrArg (c :: ·) (ih (by omega) (by omega))

/-- C9: RFC 2047 header decoding maps the encoded word `=?UTF-8?B?5L2g5aW9?=`
to the two-character UTF-8 string it encodes: the payload base64-decodes to
the bytes E4 BD A0 E5 A5 BD, which reinterpret (UTF-8) as the two characters
of that string. -/
theorem c9_decodeHeaderValue_rfc2047 :
    decodeHeaderValue "=?UTF-8?B?5L2g5aW9?=".data = "你好".data ∧
    atob "5L2g5aW9".data = some [0xE4, 0xBD, 0xA0, 0xE5, 0xA5, 0xBD] ∧
    utf8Decode [0xE4, 0xBD, 0xA0, 0xE5, 0xA5, 0xBD] = some "你好".data ∧
    "你好".data.length = 2 :=
  ⟨by decide, by decide, by decide, by decide⟩

/-! ## PDF merging (`mergePdfs`, pdf-generator.ts:678-698)

A well-formed PDF document is modelled by its list of pages.  `mergePdfs`
creates an empty output document and, for each input in order, loads it,
copies all of its pages in their original order (`pdf.getPageIndices()`),
and appends them to the output. -/

/-- `mergePdfs` (pdf-generator.ts:678-698) at the page level of abstraction:
the output accumulates every input document's page list in input order. -/
def mergePdfs {α : Type} (docs : List (List α)) : List α :=
  docs.foldl (fun acc d => acc ++ d) []

theorem mergePdfs_foldl_aux {α : Type} (docs : List (List α)) (acc : List α) :
    docs.foldl (fun a d => a ++ d) acc = acc ++ docs.flatten := by
  induction docs generalizing acc with
  | nil => simp
  | cons d ds ih => simp [List.foldl_cons, ih, List.flatten]

/-- C3: the merge of an ordered sequence of well-formed input documents is
exactly the concatenation of their page lists in input order, so its total
page count is the sum of the inputs' page counts. -/
theorem c3_mergePdfs_concat_pages {α : Type} (docs : List (List α)) :
    mergePdfs docs = docs.flatten ∧
    (mergePdfs docs).length = (docs.map List.length).sum := by
  have h : mergePdfs docs = docs.flatten := by
    rw [mergePdfs, mergePdfs_foldl_aux]; simp
  exact ⟨h, by rw [h, List.length_flatten]⟩

/-! ## Download filename sanitisation (`getSafeFilename`/`downloadPdf`,
converter.ts:237-276) -/

/-- The characters removed by the regex `[\\/:*?"<>|]` (converter.ts:268). -/
def unsafeFilenameChars : List Char := ['\\', '/', ':', '*', '?', '"', '<', '>', '|']

/-- The per-character replacement of converter.ts:268. -/
def sanitizeFilename (filename : List Char) : List Char :=
  filename.map (fun c => if c ∈ unsafeFilenameChars then '_' else c)

/-- `suf` is a suffix of `s` (JS `String.endsWith`). -/
def endsWithB (suf s : List Char) : Bool := litStartsWith suf.reverse s.reverse

/-- `getSafeFilename` (converter.ts:266-276): replace unsafe characters by
`_`; if the result ends with `.eml` case-insensitively, replace that
extension with `.pdf`. -/
def getSafeFilename (filename : List Char) : List Char :=
  if endsWithB ".eml".data (lowerStr (sanitizeFilename filename)) = true then
    (sanitizeFilename filename).take ((sanitizeFilename filename).length - 4) ++ ".pdf".data
  else sanitizeFilename filename

/-- The name under which `downloadPdf` (converter.ts:249-250) saves the
bytes: the safe name, with `.pdf` appended unless already present. -/
def downloadName (filename : List Char) : List Char :=
  if endsWithB ".pdf".data (getSafeFilename filename) = true then getSafeFilename filename
  else getSafeFilename filename ++ ".pdf".data

theorem unsafe_not_mem_sanitize {f : List Char} {c : Char}
    (hc : c ∈ unsafeFilenameChars) : c ∉ sanitizeFilename f := by
  intro hmem
  rw [sanitizeFilename] at hmem
  obtain ⟨a, _, hga⟩ := List.mem_map.mp hmem
  by_cases h : a ∈ unsafeFilenameChars
  · rw [if_pos h] at hga
    subst hga
    revert hc
    decide
  · rw [if_neg h] at hga
    subst hga
    exact h hc

theorem unsafe_not_mem_pdfExt {c : Char} (hc : c ∈ unsafeFilenameChars) :
    c ∉ ".pdf".data := by
  fin_cases hc <;> decide

theorem endsWithB_append (s t : List Char) : endsWithB t (s ++ t) = true := by
  rw [endsWithB, litStartsWith, List.reverse_append]
  simp [List.take_left]

theorem mem_getSafeFilename {f : List Char} {c : Char} (h : c ∈ getSafeFilename f) :
    c ∈ sanitizeFilename f ∨ c ∈ ".pdf".data := by
  rw [getSafeFilename] at h
  split at h
  · rcases List.mem_append.mp h with h1 | h1
    · exact Or.inl (List.take_subset _ _ h1)
    · exact Or.inr h1
  · exact Or.inl h

/-- C10: for every input filename, the download name contains none of the
unsafe characters (each was replaced by an underscore), a trailing `.eml`
extension of the sanitised name (checked case-insensitively) is replaced by
`.pdf`, and the download name always ends with `.pdf`. -/
theorem c10_downloadName_spec (f : List Char) :
    (∀ c ∈ unsafeFilenameChars, c ∉ downloadName f) ∧
    endsWithB ".pdf".data (downloadName f) = true ∧
    (endsWithB ".eml".data (lowerStr (sanitizeFilename f)) = true →
      downloadName f =
        (sanitizeFilename f).take ((sanitizeFilename f).length - 4) ++ ".pdf".data) := by
  refine ⟨?_, ?_, ?_⟩
  · intro c hc hmem
    rw [downloadName] at hmem
    have hsafe : c ∉ getSafeFilename f := by
      intro hx
      rcases mem_getSafeFilename hx with h1 | h1
      · exact unsafe_not_mem_sanitize hc h1
      · exact unsafe_not_mem_pdfExt hc h1
    split at hmem
    · exact hsafe hmem
    · rcases List.mem_append.mp hmem with h1 | h1
      · exact hsafe h1
      · exact unsafe_not_mem_pdfExt hc h1
  · rw [downloadName]
    split
    · assumption
    · exact endsWithB_append _ _
  · intro he
    have hg : getSafeFilename f =
        (sanitizeFilename f).take ((sanitizeFilename f).length - 4) ++ ".pdf".data := by
      rw [getSafeFilename, if_pos he]
    rw [downloadName, hg, if_pos (endsWithB_append _ _)]

/-- Witness for C10 at a concrete filename containing unsafe characters and
an upper-case `.EML` extension. -/
theorem c10_downloadName_spec_witness :
    endsWithB ".eml".data (lowerStr (sanitizeFilename "my:mail.EML".data)) = true ∧
    downloadName "my:mail.EML".data =
      (sanitizeFilename "my:mail.EML".data).take
        ((sanitizeFilename "my:mail.EML".data).length - 4) ++ ".pdf".data ∧
    ('|' ∈ unsafeFilenameChars → '|' ∉ downloadName "my:mail.EML".data) :=
  ⟨by decide, (c10_downloadName_spec "my:mail.EML".data).2.2 (by decide),
    fun h => (c10_downloadName_spec "my:mail.EML".data).1 '|' h⟩

/-! ## Inline-image resolution (`processHtmlWithInlineImages`,
pdf-generator.ts:621-643)

The source filters the attachments to those with a truthy `contentId` and
`disposition === 'inline'`, and for each one replaces, via the regex
`new RegExp('cid:' + contentId, 'gi')`, every case-insensitive occurrence of
`cid:<contentId>` (angle brackets stripped) in the HTML by the blob URL
created for that attachment.  `replaceAllCI` below is that global replace
for content ids containing no regex metacharacter (all ids considered by the
claims and theorems here are of that form); `URL.createObjectURL` is an
external collaborator passed as a function parameter, and the replacement
string is assumed free of `$` patterns, as blob URLs are. -/

/-- Left-to-right, non-overlapping, case-insensitive global replacement of
the literal pattern `p` by `r` (JS `String.replace` with a `gi` regex built
from a metacharacter-free pattern).  The `fuel` argument makes the scan
structurally recursive; `fuel = s.length` always suffices because every step
consumes at least one input character (`replaceAllCIAux_fuel_eq` below). -/
def replaceAllCIAux (p r : List Char) : Nat → List Char → List Char
  | 0, s => s
  | _ + 1, [] => []
  | fuel + 1, c :: cs =>
    if p ≠ [] ∧ ciStartsWith p (c :: cs) = true then
      r ++ replaceAllCIAux p r fuel (cs.drop (p.length - 1))
    else c :: replaceAllCIAux p r fuel cs

/-- The global case-insensitive replace itself. -/
def replaceAllCI (p r s : List Char) : List Char := replaceAllCIAux p r s.length s

theorem replaceAllCIAux_fuel_eq (p r : List Char) {f1 f2 : Nat} {s : List Char}
    (h1 : s.length ≤ f1) (h2 : s.length ≤ f2) :
    replaceAllCIAux p r f1 s = replaceAllCIAux p r f2 s := by
  induction f1 generalizing f2 s with
  | zero =>
    have hs : s = [] := List.length_eq_zero.mp (Nat.le_zero.mp h1)
    subst hs
    cases f2 with
    | zero => rfl
    | succ g => rfl
  | succ n ih =>
    cases s with
    | nil => cases f2 with
      | zero => rfl
      | succ g => rfl
    | cons c cs =>
      cases f2 with
      | zero => exact absurd h2 (by simp)
      | succ g =>
        simp only [List.length_cons] at h1 h2
        rw [replaceAllCIAux, replaceAllCIAux]
        split
        · rename_i hcond
          have hd : (cs.drop (p.length - 1)).length ≤ cs.length := by
            simp only [List.length_drop]; omega
          rw [@ih g _ (by omega) (by omega)]
        · rw [@ih g _ (by omega) (by omega)]

/-- Strip angle brackets (the `replace(/[<>]/g, '')` of
pdf-generator.ts:630 and eml-parser.ts:132). -/
def stripAngles (s : List Char) : List Char :=
  s.filter (fun c => decide (c ≠ '<' ∧ c ≠ '>'))

/-- The filter of pdf-generator.ts:625: truthy `contentId` and disposition
exactly `'inline'`. -/
def isInlineWithCid (a : EmailAttachment) : Bool :=
  (match a.contentId with
   | some s => decide (s ≠ [])
   | none => false) &&
  decide (a.disposition = some "inline".data)

/-- The `cid:`-token whose occurrences are replaced for an attachment. -/
def cidToken (a : EmailAttachment) : List Char :=
  "cid:".data ++ stripAngles (a.contentId.getD [])

/-- `processHtmlWithInlineImages` (pdf-generator.ts:621-643), with
`URL.createObjectURL` supplied as the collaborator `createObjectURL`. -/
def processHtmlWithInlineImages (createObjectURL : EmailAttachment → List Char)
    (html : List Char) (attachments : List EmailAttachment) : List Char :=
  (attachments.filter isInlineWithCid).foldl
    (fun acc a => replaceAllCI (cidToken a) (createObjectURL a) acc) html

/-- A concrete inline image attachment with content id `x`. -/
def inlineAttX : EmailAttachment :=
  { filename := [], contentType := "image/png".data, content := [],
    contentId := some "x".data, disposition := some "inline".data, size := 0 }

/-- C7 counterexample: the claim fails as stated.  The HTML body
`"a cid:xid:x b"` contains the literal substring `cid:x`, and `inlineAttX`
is an inline attachment whose contentId (angle brackets stripped) is `x`;
yet when the blob URL created for the attachment ends in the letter `c`
(blob URLs end in a hex UUID digit, so this happens for real URLs), the
replaced URL recombines with the following text and the result still
contains the literal substring `cid:x`. -/
theorem c7_counterexample :
    isInlineWithCid inlineAttX = true ∧
    stripAngles (inlineAttX.contentId.getD []) = "x".data ∧
    litOccursB "cid:x".data "a cid:xid:x b".data = true ∧
    litOccursB "cid:x".data
      (processHtmlWithInlineImages (fun _ => "blob:https://a/0c".data)
        "a cid:xid:x b".data [inlineAttX]) = true :=
  ⟨by decide, by decide, by decide, by decide⟩

/-! ### Lemmas about case-insensitive prefixes and occurrences -/

theorem ciStartsWith_append_left {v a b : List Char} (h : v.length ≤ a.length) :
    ciStartsWith v (a ++ b) = ciStartsWith v a := by
  rw [ciStartsWith, ciStartsWith, List.take_append_eq_append_take]
  have h0 : v.length - a.length = 0 := by omega
  rw [h0, List.take_zero, List.append_nil]

theorem ciStartsWith_cons_iff {v0 c : Char} {v' T : List Char} :
    ciStartsWith (v0 :: v') (c :: T) = true ↔
      v0.toLower = c.toLower ∧ ciStartsWith v' T = true := by
  simp [ciStartsWith, lowerStr, List.take_succ_cons]

theorem ciStartsWith_nil_right {v : List Char} (h : ciStartsWith v [] = true) : v = [] := by
  simp only [ciStartsWith, List.take_nil, decide_eq_true_eq, lowerStr, List.map_nil] at h
  exact List.map_eq_nil_iff.mp h

theorem ciStartsWith_of_append_longer {p u b : List Char}
    (h : ciStartsWith p (u ++ b) = true) (hl : u.length ≤ p.length) :
    ciStartsWith u p = true := by
  simp only [ciStartsWith, decide_eq_true_eq] at h ⊢
  rw [List.take_append_eq_append_take, List.take_of_length_le hl] at h
  have h2 := congrArg (List.take u.length) h
  rw [lowerStr, lowerStr, ← List.map_take, ← List.map_take,
    List.take_append_eq_append_take, Nat.sub_self, List.take_zero, List.append_nil,
    List.take_of_length_le (Nat.le_refl _)] at h2
  exact h2.symm

theorem ciOccurs_append_right {p a b : List Char} (h : ciOccurs p b = true) :
    ciOccurs p (a ++ b) = true := by
  induction a with
  | nil => simpa using h
  | cons x a' ih => simp only [List.cons_append, ciOccurs, List.append_eq, ih, Bool.or_true]

theorem ciOccurs_of_suffix {p t s : List Char} (h : ciOccurs p t = true) (hs : t <:+ s) :
    ciOccurs p s = true := by
  obtain ⟨w, rfl⟩ := hs
  exact ciOccurs_append_right h

theorem ciOccurs_cons_false {p : List Char} {c : Char} {cs : List Char}
    (h : ciOccurs p (c :: cs) = false) : ciOccurs p cs = false := by
  simp only [ciOccurs, Bool.or_eq_false_iff] at h
  exact h.2

theorem ciOccurs_drop_false {p s : List Char} (h : ciOccurs p s = false) (k : Nat) :
    ciOccurs p (s.drop k) = false := by
  cases hd : ciOccurs p (s.drop k) with
  | false => rfl
  | true => rw [ciOccurs_of_suffix hd (List.drop_suffix k s)] at h; cases h

theorem ciOccurs_append_cases {p a b : List Char} (h : ciOccurs p (a ++ b) = true) :
    ciOccurs p b = true ∨
      ∃ u, u ≠ [] ∧ u <:+ a ∧ ciStartsWith p (u ++ b) = true := by
  induction a with
  | nil => exact Or.inl (by simpa using h)
  | cons x a' ih =>
    rw [List.cons_append, ciOccurs, Bool.or_eq_true] at h
    rcases h with h | h
    · exact Or.inr ⟨x :: a', by simp, List.suffix_refl _, by simpa using h⟩
    · rcases ih h with h1 | ⟨u, hne, hsuf, hstart⟩
      · exact Or.inl h1
      · exact Or.inr ⟨u, hne, hsuf.trans (List.suffix_cons x a'), hstart⟩

theorem ciOccurs_of_suffix_start {p u r : List Char} (hsuf : u <:+ r)
    (h : ciStartsWith p u = true) : ciOccurs p r = true := by
  induction r with
  | nil =>
    have hu : u = [] := List.suffix_nil.mp hsuf
    subst hu
    have := ciStartsWith_nil_right h
    subst this
    rfl
  | cons c cs ih =>
    rcases List.suffix_cons_iff.mp hsuf with rfl | hsuf2
    · rw [ciOccurs, h, Bool.true_or]
    · rw [ciOccurs, ih hsuf2, Bool.or_true]

theorem ciOccurs_nil_of_ne {p : List Char} (hp : p ≠ []) : ciOccurs p [] = false := by
  cases p with
  | nil => exact absurd rfl hp
  | cons c cs => rfl

theorem litOccursB_imp_ciOccurs {p s : List Char} (h : litOccursB p s = true) :
    ciOccurs p s = true := by
  induction s with
  | nil =>
    rw [litOccursB] at h
    rw [ciOccurs, h]
  | cons c cs ih =>
    rw [litOccursB, Bool.or_eq_true] at h
    rcases h with h | h
    · simp only [litStartsWith, decide_eq_true_eq] at h
      rw [ciOccurs, Bool.or_eq_true]
      exact Or.inl (by simp only [ciStartsWith, decide_eq_true_eq]; rw [← h])
    · rw [ciOccurs, ih h, Bool.or_true]

/-- Conditions under which a replacement string `r` (a created blob URL)
cannot create or retain an occurrence of the token `p`: it is nonempty, at
least as long as `p`, contains no case-insensitive occurrence of `p`, no
nonempty suffix of it begins `p` (prevents recombination with following
text), and no proper nonempty suffix of `p` is its beginning (prevents
recombination with preceding text). -/
def urlSafeFor (p r : List Char) : Prop :=
  r ≠ [] ∧ p.length ≤ r.length ∧ ciOccurs p r = false ∧
  (∀ u ∈ r.tails, u ≠ [] → ciStartsWith u p = false) ∧
  (∀ v ∈ p.tails, v ≠ [] → v.length < p.length → ciStartsWith v r = false)

instance (p r : List Char) : Decidable (urlSafeFor p r) := by
  unfold urlSafeFor
  infer_instance

theorem ciOccurs_append_false {p r T : List Char} (hocc : ciOccurs p r = false)
    (htails : ∀ u ∈ r.tails, u ≠ [] → ciStartsWith u p = false)
    (h : ciOccurs p (r ++ T) = true) : ciOccurs p T = true := by
  rcases ciOccurs_append_cases h with h1 | ⟨u, hne, hsuf, hstart⟩
  · exact h1
  · by_cases hl : p.length ≤ u.length
    · rw [ciStartsWith_append_left hl] at hstart
      rw [ciOccurs_of_suffix_start hsuf hstart] at hocc
      cases hocc
    · have := ciStartsWith_of_append_longer hstart (by omega)
      rw [htails u ((List.mem_tails _ _).mpr hsuf) hne] at this
      cases this

/-- Prefix tracking through a replacement pass: a nonempty proper suffix `v`
of the protected token `p` that case-insensitively begins the output of a
pass also begins its input (under the `urlSafeFor` side conditions on the
pass's replacement string `r`). -/
theorem ciStartsWith_replaceAllCIAux {p q r : List Char}
    (hd : p.length ≤ r.length)
    (hc : ∀ v ∈ p.tails, v ≠ [] → v.length < p.length → ciStartsWith v r = false) :
    ∀ fuel s v, s.length ≤ fuel → v <:+ p → v ≠ [] → v.length < p.length →
      ciStartsWith v (replaceAllCIAux q r fuel s) = true → ciStartsWith v s = true := by
  intro fuel
  induction fuel with
  | zero =>
    intro s v hf _ _ _ hstart
    exact hstart
  | succ n ih =>
    intro s v hf hsuf hne hlt hstart
    cases s with
    | nil =>
      rw [replaceAllCIAux] at hstart
      exact absurd (ciStartsWith_nil_right hstart) hne
    | cons c cs =>
      simp only [List.length_cons] at hf
      rw [replaceAllCIAux] at hstart
      split at hstart
      · rw [ciStartsWith_append_left (by omega)] at hstart
        rw [hc v ((List.mem_tails _ _).mpr hsuf) hne hlt] at hstart
        cases hstart
      · cases v with
        | nil => exact absurd rfl hne
        | cons v0 v' =>
          rcases ciStartsWith_cons_iff.mp hstart with ⟨hv0, hrest⟩
          apply ciStartsWith_cons_iff.mpr
          refine ⟨hv0, ?_⟩
          cases v' with
          | nil => simp [ciStartsWith, lowerStr]
          | cons w ws =>
            have hsuf2 : (w :: ws) <:+ p := (List.suffix_cons v0 (w :: ws)).trans hsuf
            simp only [List.length_cons] at hlt
            exact ih cs (w :: ws) (by omega) hsuf2 (by simp)
              (by simp only [List.length_cons]; omega) hrest

/-- Main invariant: one replacement pass of `replaceAllCI` leaves no
case-insensitive occurrence of a token `p` in its output, provided the
pass's replacement string is `urlSafeFor p`, and either the pass's own
pattern is `p` itself or the input already contained no occurrence. -/
theorem ciOccurs_replaceAllCIAux {p q r : List Char} (hp : p ≠ [])
    (hsafe : urlSafeFor p r) :
    ∀ fuel s, s.length ≤ fuel → (q = p ∨ ciOccurs p s = false) →
      ciOccurs p (replaceAllCIAux q r fuel s) = false := by
  obtain ⟨hr, hlen, hocc, htails, hsufp⟩ := hsafe
  intro fuel
  induction fuel with
  | zero =>
    intro s hf _
    have hs : s = [] := List.length_eq_zero.mp (Nat.le_zero.mp hf)
    subst hs
    exact ciOccurs_nil_of_ne hp
  | succ n ih =>
    intro s hf hdisj
    cases s with
    | nil =>
      rw [replaceAllCIAux]
      exact ciOccurs_nil_of_ne hp
    | cons c cs =>
      simp only [List.length_cons] at hf
      rw [replaceAllCIAux]
      split
      · rename_i hcond
        have hT : ciOccurs p (replaceAllCIAux q r n (cs.drop (q.length - 1))) = false := by
          apply ih _ (by simp only [List.length_drop]; omega)
          rcases hdisj with h | h
          · exact Or.inl h
          · exact Or.inr (ciOccurs_drop_false (ciOccurs_cons_false h) _)
        cases hout : ciOccurs p (r ++ replaceAllCIAux q r n (cs.drop (q.length - 1))) with
        | false => rfl
        | true =>
          rw [ciOccurs_append_false hocc htails hout] at hT
          cases hT
      · rename_i hcond
        have hT : ciOccurs p (replaceAllCIAux q r n cs) = false := by
          apply ih _ (by omega)
          rcases hdisj with h | h
          · exact Or.inl h
          · exact Or.inr (ciOccurs_cons_false h)
        rw [ciOccurs, hT, Bool.or_false]
        cases hhead : ciStartsWith p (c :: replaceAllCIAux q r n cs) with
        | false => rfl
        | true =>
          exfalso
          cases p with
          | nil => exact hp rfl
          | cons p0 p' =>
            rcases ciStartsWith_cons_iff.mp hhead with ⟨hp0, hrest⟩
            have hpcs : ciStartsWith (p0 :: p') (c :: cs) = true := by
              apply ciStartsWith_cons_iff.mpr
              refine ⟨hp0, ?_⟩
              cases hp' : p' with
              | nil => simp [ciStartsWith, lowerStr]
              | cons w ws =>
                rw [hp'] at hrest
                apply @ciStartsWith_replaceAllCIAux _ q _ hlen hsufp n cs (w :: ws)
                  (by omega) ?_ (by simp) ?_ hrest
                · rw [← hp']; exact List.suffix_cons p0 p'
                · rw [← hp']; simp only [List.length_cons]; omega
            rcases hdisj with hqp | hnocc
            · subst hqp
              exact hcond ⟨hp, hpcs⟩
            · rw [ciOccurs, hpcs, Bool.true_or] at hnocc
              cases hnocc

theorem ciOccurs_replaceAllCI {p q r : List Char} (hp : p ≠ [])
    (hsafe : urlSafeFor p r) (s : List Char)
    (hdisj : q = p ∨ ciOccurs p s = false) :
    ciOccurs p (replaceAllCI q r s) = false :=
  ciOccurs_replaceAllCIAux hp hsafe s.length s (Nat.le_refl _) hdisj

theorem foldPasses_preserve {p : List Char} (hp : p ≠ [])
    (createObjectURL : EmailAttachment → List Char) :
    ∀ (l : List EmailAttachment) (html : List Char),
      (∀ a ∈ l, urlSafeFor p (createObjectURL a)) → ciOccurs p html = false →
      ciOccurs p
        (l.foldl (fun acc a => replaceAllCI (cidToken a) (createObjectURL a) acc) html) =
        false := by
  intro l
  induction l with
  | nil => intro html _ h; exact h
  | cons a l' ih =>
    intro html hsafe hocc
    rw [List.foldl_cons]
    exact ih _ (fun b hb => hsafe b (List.mem_cons_of_mem a hb))
      (ciOccurs_replaceAllCI hp (hsafe a (List.mem_cons_self a l')) html (Or.inr hocc))

theorem foldPasses_hit {p : List Char} (hp : p ≠ [])
    (createObjectURL : EmailAttachment → List Char) {a0 : EmailAttachment}
    (hp0 : cidToken a0 = p) :
    ∀ (l : List EmailAttachment) (html : List Char), a0 ∈ l →
      (∀ a ∈ l, urlSafeFor p (createObjectURL a)) →
      ciOccurs p
        (l.foldl (fun acc a => replaceAllCI (cidToken a) (createObjectURL a) acc) html) =
        false := by
  intro l
  induction l with
  | nil => intro html hmem _; cases hmem
  | cons a l' ih =>
    intro html hmem hsafe
    rw [List.foldl_cons]
    rcases List.mem_cons.mp hmem with rfl | hmem'
    · exact foldPasses_preserve hp createObjectURL l' _
        (fun b hb => hsafe b (List.mem_cons_of_mem a0 hb))
        (ciOccurs_replaceAllCI hp (hsafe a0 (List.mem_cons_self a0 l')) html
          (Or.inl hp0))
    · exact ih _ hmem' (fun b hb => hsafe b (List.mem_cons_of_mem a hb))

/-- C7 amended: if the HTML body and an inline attachment with stripped
contentId `X` are given, then inline-image resolution returns HTML with zero
occurrences of the literal substring `cid:X`, provided every blob URL
created for an inline attachment of the email satisfies all the
`urlSafeFor` side conditions with respect to the token `cid:X`: the URL is
at least as long as the token (in particular nonempty), contains no
case-insensitive occurrence of it, no nonempty suffix of the URL is a
case-insensitive prefix of the token (such a URL recombines with following
text, the situation of the counterexample), and no proper nonempty suffix
of the token is a case-insensitive prefix of the URL (recombination with
preceding text).  The length condition is not redundant: a URL shorter than
the token, such as `d:` for the token `cid:x`, meets the other conditions
yet can sit strictly inside a freshly created occurrence (resolving the
html `cicid:xx` yields `cid:x`).  The source builds its regex by splicing
the contentId in unescaped, so this also assumes the contentId contains no
regex metacharacter, under which the `gi`-regex replace is exactly the
case-insensitive literal replace modelled by `replaceAllCI`. -/
theorem c7_inline_resolution_amended
    (createObjectURL : EmailAttachment → List Char) (html : List Char)
    (attachments : List EmailAttachment) (a0 : EmailAttachment)
    (h0 : a0 ∈ attachments) (hinl : isInlineWithCid a0 = true)
    (hsafe : ∀ a ∈ attachments.filter isInlineWithCid,
      urlSafeFor (cidToken a0) (createObjectURL a)) :
    litOccursB (cidToken a0)
      (processHtmlWithInlineImages createObjectURL html attachments) = false := by
  have hp : cidToken a0 ≠ [] := by rw [cidToken]; simp
  have hmem : a0 ∈ attachments.filter isInlineWithCid :=
    List.mem_filter.mpr ⟨h0, hinl⟩
  have hci := foldPasses_hit hp createObjectURL rfl
    (attachments.filter isInlineWithCid) html hmem hsafe
  rw [processHtmlWithInlineImages]
  cases hlit : litOccursB (cidToken a0)
      ((attachments.filter isInlineWithCid).foldl
        (fun acc a => replaceAllCI (cidToken a) (createObjectURL a) acc) html) with
  | false => rfl
  | true => rw [litOccursB_imp_ciOccurs hlit] at hci; cases hci

/-- A concrete inline image attachment with content id `abc123`. -/
def inlineAttAbc : EmailAttachment :=
  { filename := [], contentType := "image/png".data, content := [],
    contentId := some "abc123".data, disposition := some "inline".data, size := 0 }

/-- Witness for the amended C7 at a concrete email: the blob URL
`blob:https://app/9f3e` satisfies the side conditions for the token
`cid:abc123`, and resolution removes every occurrence. -/
theorem c7_inline_resolution_amended_witness :
    inlineAttAbc ∈ [inlineAttAbc] ∧ isInlineWithCid inlineAttAbc = true ∧
    (∀ a ∈ [inlineAttAbc].filter isInlineWithCid,
      urlSafeFor (cidToken inlineAttAbc) ((fun _ => "blob:https://app/9f3e".data) a)) ∧
    litOccursB (cidToken inlineAttAbc)
      (processHtmlWithInlineImages (fun _ => "blob:https://app/9f3e".data)
        "<p><img src=\"cid:abc123\"></p>".data [inlineAttAbc]) = false :=
  ⟨by decide, by decide, by decide,
    c7_inline_resolution_amended (fun _ => "blob:https://app/9f3e".data)
      "<p><img src=\"cid:abc123\"></p>".data [inlineAttAbc] inlineAttAbc
      (by decide) (by decide) (by decide)⟩

/-! ## Page composition (`convertEmailToPdf`, pdf-generator.ts:15-48)

A produced document is modelled by its page list.  The only fallible step of
the composer is the `html2canvas` rasterization inside `addHtmlPage`
(pdf-generator.ts:260-348): that call sits in a `try { .. } finally { .. }`
whose `finally` only removes the offscreen container, so a rasterization
error propagates to `convertEmailToPdf`'s caller.  All other collaborator
calls (font embedding, drawing, `save`) are modelled as total.  The page
contents of the header, text and attachment pages are abstracted to the
data they are drawn from: their internal layout (cursor positions, line
wrapping of the drawn strings) is not the subject of any claim, and the
continuation-page branch of `addHeaderPage` (pdf-generator.ts:202-217)
cannot fire for its fixed six-entry header list on an A4 page. -/

/-- A raster image returned by the `html2canvas` collaborator. -/
structure RasterImage where
  width : ℚ
  height : ℚ
deriving DecidableEq, Repr

/-- A page of a composed document, identified by the data it renders. -/
inductive Page where
  | header (email : ParsedEmail)
  | textContent (textBody : List Char)
  | htmlSlice (img : RasterImage) (index : Nat)
  | attachList (filenames : List (List Char))
deriving DecidableEq, Repr

/-- JS truthiness of `email.htmlBody` (pdf-generator.ts:34): `null` and the
empty string both select the plain-text branch. -/
def htmlTruthy : Option (List Char) → Option (List Char)
  | none => none
  | some h => if h = [] then none else some h

/-- `addHeaderPage` (pdf-generator.ts:53-234). -/
def addHeaderPage (email : ParsedEmail) : List Page := [Page.header email]

/-- `addTextPage` (pdf-generator.ts:354-441). -/
def addTextPage (email : ParsedEmail) : List Page := [Page.textContent email.textBody]

/-- `addAttachmentsPage` (pdf-generator.ts:446-552). -/
def addAttachmentsPage (email : ParsedEmail) : List Page :=
  [Page.attachList (email.attachments.map (fun a => a.filename))]

/-- The page-count computation of `addHtmlPage` (pdf-generator.ts:280-310):
A4 is 595 by 842 with a 50-unit margin, the image is scaled by
`min(availableWidth / imageWidth, availableHeight / imageHeight)` and sliced
into `ceil(imageHeight / (availableHeight / scale))` page-height bands.
(Division by zero for a degenerate raster is not modelled; `html2canvas`
rasters have positive extent.) -/
def htmlPagesNeeded (img : RasterImage) : Nat :=
  let scale : ℚ := min (495 / img.width) (742 / img.height)
  (⌈img.height / (742 / scale)⌉).toNat

/-- `addHtmlPage` (pdf-generator.ts:239-349): resolve inline images, ask the
rasterizer, and emit one page per band; a rasterization error propagates
(the source's `try`/`finally` has no `catch`). -/
def addHtmlPage (rasterize : List Char → Except (List Char) RasterImage)
    (createObjectURL : EmailAttachment → List Char) (email : ParsedEmail)
    (html : List Char) : Except (List Char) (List Page) :=
  match rasterize (processHtmlWithInlineImages createObjectURL html email.attachments) with
  | .error e => .error e
  | .ok img => .ok ((List.range (htmlPagesNeeded img)).map (fun i => Page.htmlSlice img i))

/-- `convertEmailToPdf` (pdf-generator.ts:15-48): header page, then the HTML
branch when `htmlBody` is truthy (else the text branch), then the
attachment-listing pages when attachments exist. -/
def convertEmailToPdf (rasterize : List Char → Except (List Char) RasterImage)
    (createObjectURL : EmailAttachment → List Char) (email : ParsedEmail) :
    Except (List Char) (List Page) :=
  let headerPages := addHeaderPage email
  let attachPages := if email.attachments = [] then [] else addAttachmentsPage email
  match htmlTruthy email.htmlBody with
  | some h =>
    match addHtmlPage rasterize createObjectURL email h with
    | .error e => .error e
    | .ok body => .ok (headerPages ++ body ++ attachPages)
  | none => .ok (headerPages ++ addTextPage email ++ attachPages)

/-- A concrete well-formed email whose body is HTML. -/
def emailWithHtml : ParsedEmail :=
  { subject := "s".data, fromAddr := "a@b".data, toList := [], ccList := [],
    hasDate := false, textBody := "plain text".data,
    htmlBody := some "<p>x</p>".data, attachments := [], headers := [] }

/-- C2 counterexample: the claim fails as stated.  For the well-formed
`emailWithHtml`, when the rasterization collaborator fails, the composer
does not fall back to rendering `textBody`: `convertEmailToPdf` returns the
rasterization error to its caller. -/
theorem c2_counterexample :
    convertEmailToPdf (fun _ => .error "html2canvas failed".data)
      (fun _ => []) emailWithHtml = .error "html2canvas failed".data := by
  rfl

/-- C2 amended: `convertEmailToPdf` succeeds for every well-formed email
whose `htmlBody` is absent or empty; when `htmlBody` is truthy it succeeds
exactly when the rasterization of the resolved HTML succeeds, and a
rasterization error is propagated unchanged to the caller (no fallback to
`textBody`, no local handling). -/
theorem c2_convertEmailToPdf_amended
    (rasterize : List Char → Except (List Char) RasterImage)
    (createObjectURL : EmailAttachment → List Char) (email : ParsedEmail) :
    (htmlTruthy email.htmlBody = none →
      ∃ pages, convertEmailToPdf rasterize createObjectURL email = .ok pages) ∧
    (∀ h e, htmlTruthy email.htmlBody = some h →
      rasterize (processHtmlWithInlineImages createObjectURL h email.attachments) =
        .error e →
      convertEmailToPdf rasterize createObjectURL email = .error e) ∧
    (∀ h img, htmlTruthy email.htmlBody = some h →
      rasterize (processHtmlWithInlineImages createObjectURL h email.attachments) =
        .ok img →
      ∃ pages, convertEmailToPdf rasterize createObjectURL email = .ok pages) := by
  refine ⟨?_, ?_, ?_⟩
  · intro hnone
    rw [convertEmailToPdf, hnone]
    exact ⟨_, rfl⟩
  · intro h e hsome herr
    unfold convertEmailToPdf addHtmlPage
    rw [hsome]
    dsimp only
    rw [herr]
  · intro h img hsome hok
    unfold convertEmailToPdf addHtmlPage
    rw [hsome]
    dsimp only
    rw [hok]
    exact ⟨_, rfl⟩

/-- A concrete well-formed email with no HTML body. -/
def emailTextOnly : ParsedEmail :=
  { subject := "s".data, fromAddr := "a@b".data, toList := [], ccList := [],
    hasDate := false, textBody := "plain text".data,
    htmlBody := none, attachments := [], headers := [] }

/-- Witness for the amended C2: the text-only email composes successfully
even under an always-failing rasterizer, and for `emailWithHtml` the
rasterizer error is returned. -/
theorem c2_convertEmailToPdf_amended_witness :
    htmlTruthy emailTextOnly.htmlBody = none ∧
    (∃ pages, convertEmailToPdf (fun _ => .error "err".data) (fun _ => [])
      emailTextOnly = .ok pages) ∧
    htmlTruthy emailWithHtml.htmlBody = some "<p>x</p>".data ∧
    convertEmailToPdf (fun _ => .error "err".data) (fun _ => []) emailWithHtml =
      .error "err".data :=
  ⟨by decide,
    (c2_convertEmailToPdf_amended (fun _ => .error "err".data) (fun _ => [])
      emailTextOnly).1 (by decide),
    by decide,
    (c2_convertEmailToPdf_amended (fun _ => .error "err".data) (fun _ => [])
      emailWithHtml).2.1 "<p>x</p>".data "err".data (by decide) rfl⟩

/-! ## Greedy text wrapping (`PdfGenerator.wrapText`, pdf-generator.ts:760-812)

The inner per-paragraph loop mutates the JS loop index: on flushing a
non-empty line it sets `i = start - 1` (so the next iteration resumes at
`start`, the position after the last space consumed into the line) without
truncating the flushed line or advancing `start`.  The loop is modelled as a
step function on the loop's control state plus the lines it emits, driven by
a fuel counter; `wrapText` returns `none` when the loop is still running
after `fuel` iterations, so `(∀ fuel, wrapText .. fuel .. = none)` states
that the source loop never terminates on that input.  Glyph widths come
from the external font-metrics collaborator `measure`. -/

/-- The mutable locals of the per-paragraph loop (pdf-generator.ts:780-782),
with `i` taken at loop-body entry. -/
structure WrapCtrl where
  i : Nat
  currentLine : List Char
  currentWidth : ℚ
  start : Nat
deriving DecidableEq, Repr

/-- One iteration of the loop body (pdf-generator.ts:784-804), returning the
next entry state and the lines pushed during the iteration.  Setting
`i = start - 1` followed by the loop's `i++` is modelled as `i := start`. -/
def wrapStep (measure : Char → ℚ) (maxWidth : ℚ) (chars : List Char) (c : WrapCtrl) :
    WrapCtrl × List (List Char) :=
  let ch := chars.getD c.i ' '
  let w := measure ch
  if maxWidth < c.currentWidth + w then
    if c.currentLine ≠ [] then
      ({ i := c.start, currentLine := [], currentWidth := 0, start := c.start },
        [c.currentLine])
    else
      ({ i := c.i + 1, currentLine := [], currentWidth := c.currentWidth,
         start := c.i + 1 }, [[ch]])
  else
    ({ i := c.i + 1, currentLine := c.currentLine ++ [ch], currentWidth := c.currentWidth + w,
       start := if ch = ' ' then c.i + 1 else c.start }, [])

/-- The trailing `if (currentLine) lines.push(currentLine)` of
pdf-generator.ts:806-808. -/
def wrapFinalize (c : WrapCtrl) (lines : List (List Char)) : List (List Char) :=
  lines ++ (if c.currentLine = [] then [] else [c.currentLine])

/-- The fuel-driven loop: the source loop runs while `i < chars.length`. -/
def wrapLoop (measure : Char → ℚ) (maxWidth : ℚ) (chars : List Char) :
    Nat → WrapCtrl → List (List Char) → Option (List (List Char))
  | 0, c, lines => if c.i < chars.length then none else some (wrapFinalize c lines)
  | fuel + 1, c, lines =>
    if c.i < chars.length then
      wrapLoop measure maxWidth chars fuel (wrapStep measure maxWidth chars c).1
        (lines ++ (wrapStep measure maxWidth chars c).2)
    else some (wrapFinalize c lines)

/-- `PdfGenerator.wrapText` (pdf-generator.ts:760-812): empty text gives no
lines, text is split into paragraphs at newlines, a blank paragraph yields
one empty line, and each other paragraph is wrapped by the loop. -/
def wrapText (measure : Char → ℚ) (maxWidth : ℚ) (fuel : Nat) (text : List Char) :
    Option (List (List Char)) :=
  if text = [] then some []
  else
    ((text.splitOn '\n').mapM (fun (p : List Char) =>
      if p.all (fun ch => ch.isWhitespace) then some [[]]
      else wrapLoop measure maxWidth p fuel ⟨0, [], 0, 0⟩ [])).map List.flatten


theorem wrapStep_cyc0 :
    (wrapStep (fun _ => (1 : ℚ)) 3 ['a', 'a', 'a', 'b'] ⟨0, [], 0, 0⟩) =
      (⟨1, ['a'], 1, 0⟩, []) := by
  rw [wrapStep]; norm_num [List.getD]; decide

theorem wrapStep_cyc1 :
    (wrapStep (fun _ => (1 : ℚ)) 3 ['a', 'a', 'a', 'b'] ⟨1, ['a'], 1, 0⟩) =
      (⟨2, ['a', 'a'], 2, 0⟩, []) := by
  rw [wrapStep]; norm_num [List.getD]; decide

theorem wrapStep_cyc2 :
    (wrapStep (fun _ => (1 : ℚ)) 3 ['a', 'a', 'a', 'b'] ⟨2, ['a', 'a'], 2, 0⟩) =
      (⟨3, ['a', 'a', 'a'], 3, 0⟩, []) := by
  rw [wrapStep]; norm_num [List.getD]; decide

theorem wrapStep_cyc3 :
    (wrapStep (fun _ => (1 : ℚ)) 3 ['a', 'a', 'a', 'b'] ⟨3, ['a', 'a', 'a'], 3, 0⟩) =
      (⟨0, [], 0, 0⟩, [['a', 'a', 'a']]) := by
  rw [wrapStep]; norm_num [List.getD]; decide

/-- The four control states through which the loop cycles forever on the
paragraph `aaab` with unit glyph widths and `maxWidth = 3`. -/
def wrapCycle : List WrapCtrl :=
  [⟨0, [], 0, 0⟩, ⟨1, ['a'], 1, 0⟩, ⟨2, ['a', 'a'], 2, 0⟩, ⟨3, ['a', 'a', 'a'], 3, 0⟩]

theorem wrapCycle_closed {c : WrapCtrl} (h : c ∈ wrapCycle) :
    (wrapStep (fun _ => (1 : ℚ)) 3 ['a', 'a', 'a', 'b'] c).1 ∈ wrapCycle := by
  fin_cases h
  · rw [wrapStep_cyc0]; simp [wrapCycle]
  · rw [wrapStep_cyc1]; simp [wrapCycle]
  · rw [wrapStep_cyc2]; simp [wrapCycle]
  · rw [wrapStep_cyc3]; simp [wrapCycle]

theorem wrapCycle_i_lt {c : WrapCtrl} (h : c ∈ wrapCycle) :
    c.i < (['a', 'a', 'a', 'b'] : List Char).length := by
  fin_cases h <;> simp

theorem wrapLoop_aaab_none :
    ∀ (fuel : Nat) (c : WrapCtrl) (lines : List (List Char)), c ∈ wrapCycle →
      wrapLoop (fun _ => (1 : ℚ)) 3 ['a', 'a', 'a', 'b'] fuel c lines = none := by
  intro fuel
  induction fuel with
  | zero =>
    intro c lines hc
    rw [wrapLoop, if_pos (wrapCycle_i_lt hc)]
  | succ n ih =>
    intro c lines hc
    rw [wrapLoop, if_pos (wrapCycle_i_lt hc)]
    exact ih _ _ (wrapCycle_closed hc)

/-- C5: the claim fails on the code; `wrapText` does not terminate on every
non-empty input with positive `maxWidth`.  On the spaceless paragraph
`aaab`, with every glyph 1 unit wide and `maxWidth = 3`, the first three
glyphs fill the line, the fourth overflows it, and the flush
(`i = start - 1` with `start` still 0) resets the scan to the paragraph
start without consuming input, so the loop re-derives the same line
forever: for every iteration bound the loop is still running. -/
theorem c5_wrapText_nonterminating :
    ∀ fuel : Nat, wrapText (fun _ => (1 : ℚ)) 3 fuel ['a', 'a', 'a', 'b'] = none := by
  intro fuel
  rw [wrapText, if_neg (by decide)]
  have hsplit : (['a', 'a', 'a', 'b'] : List Char).splitOn '\n' = [['a', 'a', 'a', 'b']] := by
    decide
  rw [hsplit]
  have hblank : (['a', 'a', 'a', 'b'] : List Char).all (fun ch => ch.isWhitespace) = false := by
    decide
  simp only [List.mapM_cons, List.mapM_nil, hblank, Bool.false_eq_true, if_false,
    wrapLoop_aaab_none fuel ⟨0, [], 0, 0⟩ [] (by simp [wrapCycle])]
  rfl

/-! ## Application store (src/lib/store/app-store.ts)

The store is the `BatchRun` state of the spec: per-file items, the
processing flag, the processed/total counters and the log.  Log messages
are abbreviated to the file identity concerned (the Chinese template text
around it carries no further data). -/

/-- Status of a file item (FileList.tsx:8). -/
inductive FileStatus where
  | pending
  | processing
  | success
  | error
deriving DecidableEq, Repr

/-- A file list entry (interface `FileItem`, FileList.tsx:5-11). -/
structure FileItem where
  id : List Char
  status : FileStatus
  progress : Option Nat
  error : Option (List Char)
deriving DecidableEq, Repr

/-- Log levels (app-store.ts:6). -/
inductive LogLevel where
  | info
  | warning
  | error
  | success
deriving DecidableEq, Repr

/-- The store state (app-store.ts:60-108). -/
structure AppStore where
  files : List FileItem
  isProcessing : Bool
  processedCount : Nat
  totalCount : Nat
  logs : List (LogLevel × List Char)
deriving DecidableEq, Repr

/-- `updateFileStatus` (app-store.ts:75-81): the spread `{ ...file, status,
progress, error }` overwrites `progress` and `error` with the call's
arguments, `undefined` (`none`) when omitted. -/
def updateFileStatus (id : List Char) (status : FileStatus) (progress : Option Nat)
    (err : Option (List Char)) (st : AppStore) : AppStore :=
  { st with files := st.files.map (fun f =>
      if f.id = id then { f with status := status, progress := progress, error := err }
      else f) }

/-- `incrementProcessed` (app-store.ts:102-104). -/
def incrementProcessed (st : AppStore) : AppStore :=
  { st with processedCount := st.processedCount + 1 }

/-- `pauseProcessing` (app-store.ts:97). -/
def pauseProcessing (st : AppStore) : AppStore := { st with isProcessing := false }

/-- `addLog` (app-store.ts:122-132): prepend and keep the most recent 100. -/
def addLog (level : LogLevel) (message : List Char) (st : AppStore) : AppStore :=
  { st with logs := ((level, message) :: st.logs).take 100 }

/-! ## Batch orchestrator (`batchProcessEmlFiles`, converter.ts:10-173)

Within a batch the source dispatches every file through `Promise.all`; the
per-file effects are serialized here in input order (see the header note).
The per-file pipeline — read the file, `parseEmlContent`, then
`convertEmailToPdf` — is supplied as the composition `emlPipeline` of the
parse collaborator (the external MIME parser together with the file's
bytes) and the composer model above.  The store snapshot semantics is the
source's: `isProcessing` is destructured from `useAppStore.getState()` once
at run start (converter.ts:33-38) and the per-file check at converter.ts:64
reads that snapshot.  User actions such as `pauseProcessing` can run only
when the orchestrator yields; `pauseAfterBatch i` injects one at the
barrier after batch `i`, the first yield point after which further files
are dequeued. -/

/-- All observable outcomes of one run: the final store, merged-output
buffer, per-file callbacks (`onComplete`/`onError`), batch callbacks
(`onBatchComplete`), the argument lists of the `mergePdfs` invocations,
triggered prints, and for each dequeued file the live value of
`store.isProcessing` at the moment it was dequeued into processing. -/
structure RunState where
  store : AppStore
  allPdfData : List (List Page)
  completes : List (List Char × List Page)
  errors : List (List Char × List Char)
  batchCompletes : List (List Page)
  mergeCalls : List (List (List Page))
  prints : List (List Page)
  dequeues : List (List Char × Bool)
deriving DecidableEq, Repr

/-- The options destructured at converter.ts:22-30 (callbacks are recorded
in `RunState` instead of being passed in). -/
structure BatchOptions where
  batchSize : Nat
  mergePdf : Bool
  autoPrint : Bool
deriving DecidableEq, Repr

/-- The per-file pipeline: read + `parseEmlContent` (collaborator `parse`)
then `convertEmailToPdf` (converter.ts:72-83). -/
def emlPipeline (parse : List Char → Except (List Char) ParsedEmail)
    (rasterize : List Char → Except (List Char) RasterImage)
    (createObjectURL : EmailAttachment → List Char)
    (fileId : List Char) : Except (List Char) (List Page) :=
  match parse fileId with
  | .error e => .error e
  | .ok email => convertEmailToPdf rasterize createObjectURL email

/-- The batch partition of converter.ts:41-44 (`files.slice(i, i + batchSize)`
for `i = 0, batchSize, 2*batchSize, ...`).  The fuel makes the recursion
structural; `fuel = l.length` suffices for every `batchSize ≥ 1`, which the
source also assumes (its loop would not advance otherwise). -/
def chunkAux {α : Type} (bs : Nat) : Nat → List α → List (List α)
  | 0, l => if l.isEmpty then [] else [l]
  | fuel + 1, l => if l.isEmpty then [] else l.take bs :: chunkAux bs fuel (l.drop bs)

/-- Partition a file list into batches. -/
def chunkFiles {α : Type} (bs : Nat) (l : List α) : List (List α) := chunkAux bs l.length l

/-- The body of `batch.map(async (file) => ...)` (converter.ts:58-119),
threading the run state and the batch's `batchPdfData` buffer.  `snapshot`
is the `isProcessing` value captured at run start; the check at
converter.ts:64 consults it (not the live store) before any processing of
the file, and on `false` the task returns without touching the file. -/
def processOneFile (pipeline : List Char → Except (List Char) (List Page))
    (opts : BatchOptions) (snapshot : Bool)
    (state : RunState × List (List Page)) (fileId : List Char) :
    RunState × List (List Page) :=
  let rs := state.1
  let batchPdfData := state.2
  if snapshot = false then (rs, batchPdfData)
  else
    let rs1 := { rs with
      dequeues := rs.dequeues ++ [(fileId, rs.store.isProcessing)],
      store := updateFileStatus fileId .processing none none rs.store }
    match pipeline fileId with
    | .ok pdfData =>
      let batchPdfData2 := if opts.mergePdf then batchPdfData ++ [pdfData] else batchPdfData
      let rs2 := { rs1 with
        completes :=
          if opts.mergePdf then rs1.completes else rs1.completes ++ [(fileId, pdfData)] }
      let rs3 := { rs2 with
        store := addLog .success fileId
          (incrementProcessed (updateFileStatus fileId .success none none rs2.store)) }
      let rs4 :=
        if opts.autoPrint ∧ ¬ opts.mergePdf then { rs3 with prints := rs3.prints ++ [pdfData] }
        else rs3
      (rs4, batchPdfData2)
    | .error e =>
      let rs2 := { rs1 with
        store := addLog .error (fileId ++ ' ' :: e)
          (updateFileStatus fileId .error (some 0) (some e) rs1.store),
        errors := rs1.errors ++ [(fileId, e)] }
      (rs2, batchPdfData)

/-- One batch (converter.ts:50-147): the info log, the per-file tasks, and
the per-batch merge of the buffered successful outputs when merging is
enabled and the buffer is nonempty. -/
def processBatch (pipeline : List Char → Except (List Char) (List Page))
    (opts : BatchOptions) (snapshot : Bool) (rs : RunState)
    (batch : List (List Char)) : RunState :=
  let rs0 := { rs with store := addLog .info [] rs.store }
  let folded := batch.foldl (processOneFile pipeline opts snapshot) (rs0, [])
  let rs1 := folded.1
  let batchPdfData := folded.2
  if opts.mergePdf ∧ batchPdfData ≠ [] then
    let merged := mergePdfs batchPdfData
    let rs2 := { rs1 with
      allPdfData := rs1.allPdfData ++ [merged],
      mergeCalls := rs1.mergeCalls ++ [batchPdfData],
      batchCompletes := rs1.batchCompletes ++ [merged],
      store := addLog .success [] rs1.store }
    if opts.autoPrint then { rs2 with prints := rs2.prints ++ [merged] } else rs2
  else rs1

/-- `batchProcessEmlFiles` (converter.ts:10-173).  `pauseAfterBatch i` says
whether the user invokes `pauseProcessing` at the barrier after batch `i`;
the run reads `isProcessing` once, at start. -/
def batchProcessEmlFiles (pipeline : List Char → Except (List Char) (List Page))
    (opts : BatchOptions) (pauseAfterBatch : Nat → Bool)
    (files : List (List Char)) (st0 : AppStore) : RunState :=
  let snapshot := st0.isProcessing
  let rs0 : RunState :=
    { store := st0, allPdfData := [], completes := [], errors := [],
      batchCompletes := [], mergeCalls := [], prints := [], dequeues := [] }
  let batches := chunkFiles opts.batchSize files
  let rs1 := batches.enum.foldl
    (fun rs p =>
      let rs2 := processBatch pipeline opts snapshot rs p.2
      if pauseAfterBatch p.1 then { rs2 with store := pauseProcessing rs2.store } else rs2)
    rs0
  let rs2 :=
    if opts.mergePdf ∧ rs1.allPdfData.length > 1 then
      let finalMerged := mergePdfs rs1.allPdfData
      let rsx := { rs1 with
        mergeCalls := rs1.mergeCalls ++ [rs1.allPdfData],
        batchCompletes := rs1.batchCompletes ++ [finalMerged],
        store := addLog .success [] rs1.store }
      if opts.autoPrint then { rsx with prints := rsx.prints ++ [finalMerged] } else rsx
    else rs1
  { rs2 with store := addLog .info [] rs2.store }

/-- The store as prepared by the UI before a run: one `pending` item per
file with the file's name as its id (the orchestrator keys
`updateFileStatus` by `file.name`, converter.ts:59-60), `totalCount` the
file count, and `isProcessing` set by `startProcessing`. -/
def initialStore (fileIds : List (List Char)) : AppStore :=
  { files := fileIds.map (fun n =>
      { id := n, status := .pending, progress := none, error := none }),
    isProcessing := true, processedCount := 0, totalCount := fileIds.length, logs := [] }

/-! ## Concrete batch runs for the orchestrator claims -/

/-- Parse collaborator for the failure-isolation run: file `f3` is an
unparseable blob, every other file parses to a text-only email. -/
def c1Parse (fid : List Char) : Except (List Char) ParsedEmail :=
  if fid = "f3".data then .error "unparseable".data
  else .ok { emailTextOnly with subject := fid, textBody := fid }

/-- The five input files of the failure-isolation scenario. -/
def c1Files : List (List Char) := ["f1".data, "f2".data, "f3".data, "f4".data, "f5".data]

/-- The failure-isolation run: five files, file 3 corrupt, one batch, no
merging, no pause. -/
def c1Run : RunState :=
  batchProcessEmlFiles (emlPipeline c1Parse (fun _ => .error []) (fun _ => []))
    { batchSize := 5, mergePdf := false, autoPrint := false } (fun _ => false)
    c1Files (initialStore c1Files)

/-- C1: evaluation of the code at the failing input.  Failure isolation
holds — file 3 is recorded with terminal status `error` carrying the
failure message (also reported through `onError`), and the other four files
reach `success` with their outputs delivered — but `processedCount` ends at
4, not 5: the catch branch of converter.ts:109-118 does not call
`incrementProcessed`, so an errored file never counts as processed and the
claimed end value `processedCount = N` fails. -/
theorem c1_batch_failure_isolation_processedCount :
    c1Run.store.files.map (fun f => f.status) =
      [.success, .success, .error, .success, .success] ∧
    c1Run.store.files.map (fun f => f.error) =
      [none, none, some "unparseable".data, none, none] ∧
    c1Run.errors = [("f3".data, "unparseable".data)] ∧
    c1Run.completes.map (fun p => p.1) = ["f1".data, "f2".data, "f4".data, "f5".data] ∧
    c1Run.store.totalCount = 5 ∧
    c1Run.store.processedCount = 4 := by
  refine ⟨by decide, by decide, by decide, by decide, by decide, by decide⟩

/-- Parse collaborator for the all-success runs. -/
def allOkParse (fid : List Char) : Except (List Char) ParsedEmail :=
  .ok { emailTextOnly with subject := fid, textBody := fid }

/-- The seven input files of the merge-scoping scenario. -/
def c4Files : List (List Char) :=
  ["f1".data, "f2".data, "f3".data, "f4".data, "f5".data, "f6".data, "f7".data]

/-- The merge-scoping run: seven files, `batchSize = 3`, merging enabled,
all files succeed. -/
def c4Run : RunState :=
  batchProcessEmlFiles (emlPipeline allOkParse (fun _ => .error []) (fun _ => []))
    { batchSize := 3, mergePdf := true, autoPrint := false } (fun _ => false)
    c4Files (initialStore c4Files)

/-- The composed document of one file in the all-success runs. -/
def c4pg (fid : List Char) : List Page :=
  [Page.header { emailTextOnly with subject := fid, textBody := fid }, Page.textContent fid]

/-- C4 counterexample: the run does not produce exactly `ceil(7/3) = 3`
merged outputs.  Enabling merging also triggers the whole-run merge of
converter.ts:150-170, so `onBatchComplete` receives four merged documents
and `mergePdfs` is invoked four times, the fourth over the three per-batch
results rather than any single batch's buffered outputs. -/
theorem c4_counterexample :
    c4Run.batchCompletes.length = 4 ∧ c4Run.mergeCalls.length = 4 := by
  refine ⟨by decide, by decide⟩

/-- C4 amended: with merging enabled, `batchSize = 3` and 7 files all
succeeding, the run partitions into `ceil(7/3) = 3` batches and produces
exactly 3 per-batch merged outputs, each merge invoked over only that
batch's buffered successful outputs in order — plus one additional final
merged output, obtained by merging the 3 per-batch results, because the
single `mergePdf` flag enables both the per-batch and the whole-run merge. -/
theorem c4_merge_scoping_amended :
    (chunkFiles 3 c4Files).length = 3 ∧
    c4Run.store.files.map (fun f => f.status) =
      [.success, .success, .success, .success, .success, .success, .success] ∧
    c4Run.mergeCalls =
      [[c4pg "f1".data, c4pg "f2".data, c4pg "f3".data],
       [c4pg "f4".data, c4pg "f5".data, c4pg "f6".data],
       [c4pg "f7".data],
       [c4pg "f1".data ++ c4pg "f2".data ++ c4pg "f3".data,
        c4pg "f4".data ++ c4pg "f5".data ++ c4pg "f6".data,
        c4pg "f7".data]] ∧
    c4Run.batchCompletes =
      [c4pg "f1".data ++ c4pg "f2".data ++ c4pg "f3".data,
       c4pg "f4".data ++ c4pg "f5".data ++ c4pg "f6".data,
       c4pg "f7".data,
       (c4pg "f1".data ++ c4pg "f2".data ++ c4pg "f3".data) ++
         (c4pg "f4".data ++ c4pg "f5".data ++ c4pg "f6".data) ++ c4pg "f7".data] := by
  refine ⟨by decide, by decide, by decide, by decide⟩

/-- The four input files of the pause scenario. -/
def c6Files : List (List Char) := ["f1".data, "f2".data, "f3".data, "f4".data]

/-- The pause run: four files in batches of two, `pauseProcessing` invoked
at the barrier after the first batch. -/
def c6Run : RunState :=
  batchProcessEmlFiles (emlPipeline allOkParse (fun _ => .error []) (fun _ => []))
    { batchSize := 2, mergePdf := false, autoPrint := false } (fun i => i = 0)
    c6Files (initialStore c6Files)

/-- C6: evaluation of the code at the failing input.  After the pause the
store's `isProcessing` is `false`, yet files `f3` and `f4` are still
dequeued into processing (their dequeue events record the live flag as
`false`) and run to completion: the check at converter.ts:64 reads the
`isProcessing` value destructured once at run start (converter.ts:33-38),
so pausing during a run does not halt dequeuing. -/
theorem c6_pause_does_not_halt_dequeue :
    c6Run.dequeues =
      [("f1".data, true), ("f2".data, true), ("f3".data, false), ("f4".data, false)] ∧
    c6Run.store.isProcessing = false ∧
    c6Run.store.files.map (fun f => f.status) = [.success, .success, .success, .success] ∧
    c6Run.store.processedCount = 4 := by
  refine ⟨by decide, by decide, by decide, by decide⟩
